import Mathlib

/-!
Verification development for the GURLScraper crawler (src/GURLScraper.py).

Strings are modelled as Lean `String` (kernel-level a list of characters);
most string processing is done on `List Char`, matching Python's
character-wise semantics (a Python `str` is a sequence of code points).
Python `set` is modelled as a duplicate-free list in first-insertion order
(only membership, insertion, size and sorted iteration are used, so the
order is unobservable); Python `dict` is modelled as an insertion-ordered
association list `List (key × value)` (CPython dicts preserve insertion
order, and `setdefault` appends a fresh key at the end).
Fallible code (the `urllib.parse` functions can raise `ValueError`) is
modelled with `Except String`.
-/

deriving instance DecidableEq for Except

/-! ## Character-list helpers -/

/-- Split a character list at the first occurrence of `c`; `none` when `c`
does not occur.  Mirrors Python's `s.split(c, 1)` when it succeeds. -/
def splitFirst (c : Char) : List Char → Option (List Char × List Char)
  | [] => none
  | x :: xs =>
    if x = c then some ([], xs)
    else (splitFirst c xs).map fun p => (x :: p.1, p.2)

/-- Accumulator worker for `splitOnChar`. -/
def splitOnCharAux (c : Char) : List Char → List Char → List (List Char)
  | [], acc => [acc.reverse]
  | x :: xs, acc =>
    if x = c then acc.reverse :: splitOnCharAux c xs []
    else splitOnCharAux c xs (x :: acc)

/-- Python `s.split(c)`: splits on every occurrence, keeping empty pieces
(`"" .split c = [""]`). -/
def splitOnChar (c : Char) (l : List Char) : List (List Char) :=
  splitOnCharAux c l []

/-- Python code-point lexicographic comparison of strings (`a <= b`). -/
def charListLe : List Char → List Char → Bool
  | [], _ => true
  | _ :: _, [] => false
  | a :: as, b :: bs =>
    if a.toNat < b.toNat then true
    else if b.toNat < a.toNat then false
    else charListLe as bs

/-- Python string comparison `a <= b` (code-point lexicographic order). -/
def pyStrLe (a b : String) : Bool := charListLe a.toList b.toList

/-- Boolean substring test: does `pat` occur contiguously inside the list?
Mirrors Python's `pat in s`. -/
def containsSeq (pat : List Char) : List Char → Bool
  | [] => pat.isEmpty
  | c :: rest => pat.isPrefixOf (c :: rest) || containsSeq pat rest

/-! ## Model of `urllib.parse.unquote` (percent-decoding)

CPython's `unquote(string, encoding='utf-8', errors='replace')` decodes each
maximal run of `%XX` hex pairs as a byte string and UTF-8-decodes it with
replacement; an invalid `%..` stays literal.  The UTF-8 decoder below checks
leading-byte ranges and continuation bytes; CPython additionally rejects
overlong encodings and surrogates, which no theorem below depends on. -/

/-- Value of a hex digit (`0-9`, `a-f`, `A-F`), as used by CPython's
`unquote_to_bytes` hex table. -/
def hexVal (c : Char) : Option Nat :=
  if 48 ≤ c.toNat && c.toNat ≤ 57 then some (c.toNat - 48)
  else if 97 ≤ c.toNat && c.toNat ≤ 102 then some (c.toNat - 87)
  else if 65 ≤ c.toNat && c.toNat ≤ 70 then some (c.toNat - 55)
  else none

/-- Is `b` a UTF-8 continuation byte (`0x80`–`0xBF`)? -/
def utf8Cont (b : Nat) : Bool := 128 ≤ b && b ≤ 191

/-- Fuel-indexed worker for `utf8Replace`; the fuel (always instantiated
with the byte-list length, which bounds the number of emitted characters)
makes the recursion structural, so that the definition evaluates inside the
kernel. -/
def utf8ReplaceFuel : Nat → List Nat → List Char
  | 0, _ => []
  | _ + 1, [] => []
  | fuel + 1, b :: bs =>
    if b < 128 then Char.ofNat b :: utf8ReplaceFuel fuel bs
    else if 194 ≤ b && b ≤ 223 then
      match bs with
      | c :: bs2 =>
        if utf8Cont c then Char.ofNat ((b - 192) * 64 + (c - 128)) :: utf8ReplaceFuel fuel bs2
        else Char.ofNat 0xFFFD :: utf8ReplaceFuel fuel (c :: bs2)
      | [] => [Char.ofNat 0xFFFD]
    else if 224 ≤ b && b ≤ 239 then
      match bs with
      | c :: d :: bs2 =>
        if utf8Cont c && utf8Cont d then
          Char.ofNat ((b - 224) * 4096 + (c - 128) * 64 + (d - 128)) :: utf8ReplaceFuel fuel bs2
        else Char.ofNat 0xFFFD :: utf8ReplaceFuel fuel (c :: d :: bs2)
      | _ => [Char.ofNat 0xFFFD]
    else if 240 ≤ b && b ≤ 244 then
      match bs with
      | c :: d :: e :: bs2 =>
        if utf8Cont c && utf8Cont d && utf8Cont e then
          Char.ofNat ((b - 240) * 262144 + (c - 128) * 4096 + (d - 128) * 64 + (e - 128))
            :: utf8ReplaceFuel fuel bs2
        else Char.ofNat 0xFFFD :: utf8ReplaceFuel fuel (c :: d :: e :: bs2)
      | _ => [Char.ofNat 0xFFFD]
    else Char.ofNat 0xFFFD :: utf8ReplaceFuel fuel bs

/-- UTF-8 decoding of a byte list with U+FFFD replacement on error
(the `errors='replace'` behaviour of `bytes.decode`). -/
def utf8Replace (l : List Nat) : List Char := utf8ReplaceFuel l.length l

/-- Tokenize a percent-encoded string: each valid `%XX` becomes a byte
(`Sum.inl`), everything else stays a character (`Sum.inr`). -/
def pctTokenize : List Char → List (Nat ⊕ Char)
  | [] => []
  | '%' :: a :: b :: rest =>
    match hexVal a, hexVal b with
    | some ha, some hb => Sum.inl (ha * 16 + hb) :: pctTokenize rest
    | _, _ => Sum.inr '%' :: pctTokenize (a :: b :: rest)
  | c :: rest => Sum.inr c :: pctTokenize rest

/-- Decode the token stream: maximal byte runs are UTF-8-decoded with
replacement, literal characters pass through.  `acc` holds the current byte
run in reverse. -/
def pctDecode (acc : List Nat) : List (Nat ⊕ Char) → List Char
  | [] => utf8Replace acc.reverse
  | Sum.inl b :: rest => pctDecode (b :: acc) rest
  | Sum.inr c :: rest => utf8Replace acc.reverse ++ c :: pctDecode [] rest

/-- Model of `urllib.parse.unquote` with `utf-8`/`replace` (the defaults
used by `parse_qsl`); exact for ASCII input. -/
def pyUnquote (l : List Char) : List Char := pctDecode [] (pctTokenize l)

/-- Python `s.replace('+', ' ')` as applied by `parse_qsl` to names and
values. -/
def plusToSpace (l : List Char) : List Char :=
  l.map fun c => if c = '+' then ' ' else c

/-! ## Model of `urllib.parse.urlsplit` / `urlparse` -/

/-- Result of `urllib.parse.urlparse`: the six components
`(scheme, netloc, path, params, query, fragment)`. -/
structure UrlSplitResult where
  scheme : List Char
  netloc : List Char
  path : List Char
  params : List Char
  query : List Char
  fragment : List Char
deriving DecidableEq

/-- Characters allowed after the first character of a URL scheme
(CPython's `scheme_chars`: ASCII letters, digits, `+`, `-`, `.`). -/
def schemeChar (c : Char) : Bool :=
  c.isAlpha || c.isDigit || c = '+' || c = '-' || c = '.'

/-- CPython scheme split: if the text before the first `:` is a valid scheme
(first char an ASCII letter, rest `schemeChar`), strip and lowercase it;
otherwise leave the URL untouched. -/
def splitScheme (l : List Char) : List Char × List Char :=
  match splitFirst ':' l with
  | none => ([], l)
  | some (before, after) =>
    match before with
    | [] => ([], l)
    | c0 :: rest =>
      if c0.isAlpha && rest.all schemeChar then ((c0 :: rest).map Char.toLower, after)
      else ([], l)

/-- Characters that end the netloc in `_splitnetloc`. -/
def stopNetloc (c : Char) : Bool := c = '/' || c = '?' || c = '#'

/-- CPython `_splitnetloc(url, 2)`: the netloc runs from position 2 (just
after `//`) up to the first `/`, `?` or `#`; the second component is the
rest of the URL from that delimiter on. -/
def splitNetloc (l : List Char) : List Char × List Char :=
  ((l.drop 2).takeWhile (fun c => !stopNetloc c), (l.drop 2).dropWhile (fun c => !stopNetloc c))

/-- CPython `_splitparams`: split `;params` off the last path segment. -/
def splitParams (l : List Char) : List Char × List Char :=
  if l.contains '/' then
    let r := l.reverse
    let seg := (r.takeWhile fun c => !(c = '/' : Bool)).reverse
    let pre := (r.dropWhile fun c => !(c = '/' : Bool)).reverse
    match splitFirst ';' seg with
    | none => (l, [])
    | some (a, b) => (pre ++ a, b)
  else
    match splitFirst ';' l with
    | none => (l, [])
    | some (a, b) => (a, b)

/-- Model of `urllib.parse.urlparse` on the character list of the input.
Follows CPython `urlsplit`: strip leading C0-control/space characters,
remove `\t`/`\r`/`\n`, split off a scheme, split the netloc after `//`
(raising `ValueError "Invalid IPv6 URL"` on an unbalanced bracket), then
fragment, query and params.  Not modelled: the extra `ValueError` paths of
newer CPython for invalid *bracketed* hosts, and the `_checknetloc`
rejection of some non-ASCII netlocs (it returns early for ASCII netlocs);
theorems about exception-freedom below are therefore stated for
bracket-free ASCII inputs, where all CPython versions agree. -/
def urlparseChars (l0 : List Char) : Except String UrlSplitResult :=
  let l1 := l0.dropWhile fun c => c.toNat ≤ 32
  let l2 := l1.filter fun c => !(c = '\t' || c = '\r' || c = '\n' : Bool)
  let su := splitScheme l2
  let nu := if su.2.take 2 = ['/', '/'] then splitNetloc su.2 else ([], su.2)
  if (nu.1.contains '[' && !nu.1.contains ']') || (nu.1.contains ']' && !nu.1.contains '[') then
    .error "Invalid IPv6 URL"
  else
    let f := match splitFirst '#' nu.2 with | none => (nu.2, []) | some p => p
    let q := match splitFirst '?' f.1 with | none => (f.1, []) | some p => p
    let pp := splitParams q.1
    .ok ⟨su.1, nu.1, pp.1, pp.2, q.2, f.2⟩

/-! ## Model of `parse_qs` access -/

/-- One name/value pair of `parse_qsl` with the default arguments: empty
pieces are skipped, a piece without `=` is skipped, a blank value is skipped
(`keep_blank_values=False`), and `+`/percent decoding is applied to both
name and value. -/
def qslPair (piece : List Char) : Option (List Char × List Char) :=
  if piece = [] then none
  else
    match splitFirst '=' piece with
    | none => none
    | some (n, v) =>
      if v = [] then none
      else some (pyUnquote (plusToSpace n), pyUnquote (plusToSpace v))

/-- Model of `urllib.parse.parse_qsl(qs)` with default arguments
(separator `&`). -/
def parse_qsl (q : List Char) : List (List Char × List Char) :=
  if q = [] then [] else (splitOnChar '&' q).filterMap qslPair

/-- The value `parse_qs(q)[name][0]` when `parse_qs(q).get(name)` is truthy,
else `none`: the first value listed for `name`.  (Values are never the empty
string, since blank values are skipped, so the truthiness test on the value
list is exactly non-emptiness.) -/
def qsFirst (q : List Char) (name : List Char) : Option (List Char) :=
  ((parse_qsl q).find? fun p => p.1 == name).map fun p => p.2

/-! ## Model of `clean_google_href` -/

/-- Character list of the prefix `translate.google.` tested by the source. -/
def translatePrefix : List Char := "translate.google.".toList

/-- Character list of the prefix `www.google.` tested by the source. -/
def wwwPrefix : List Char := "www.google.".toList

/-- Character list of the substring `google.` tested by the source. -/
def googleDot : List Char := "google.".toList

/-- Character list of the redirect path `/url` tested by the source. -/
def urlPathChars : List Char := "/url".toList

/-- Core of `clean_google_href` on the parsed character list (`href` is
non-empty here).  Direct translation of the source: translate-subdomain
`u` parameter, then `www.google.*/url` `q` (preferred) or `url` parameter,
then discard anything whose netloc contains `google.`, else return the
input unchanged. -/
def cleanChars (h : List Char) : Except String (Option (List Char)) :=
  match urlparseChars h with
  | .error e => .error e
  | .ok p =>
    if translatePrefix.isPrefixOf p.netloc && (qsFirst p.query ['u']).isSome then
      .ok (qsFirst p.query ['u'])
    else if wwwPrefix.isPrefixOf p.netloc && p.path == urlPathChars
        && (qsFirst p.query ['q']).isSome then
      .ok (qsFirst p.query ['q'])
    else if wwwPrefix.isPrefixOf p.netloc && p.path == urlPathChars
        && (qsFirst p.query ['u', 'r', 'l']).isSome then
      .ok (qsFirst p.query ['u', 'r', 'l'])
    else if containsSeq googleDot p.netloc then
      .ok none
    else
      .ok (some h)

/-- Model of `clean_google_href(href)` from src/GURLScraper.py.  `none`
input and the empty string are falsy (`if not href: return None`); a
`ValueError` raised by `urlparse` propagates (the source has no handler). -/
def clean_google_href : Option String → Except String (Option String)
  | none => .ok none
  | some h =>
    if h = "" then .ok none
    else (cleanChars h.toList).map (Option.map fun cs => String.mk cs)

/-- Applying the normalizer twice, with a raised exception and with an
absent result both propagating (the composite the idempotence property of
the spec is about). -/
def cleanTwice (x : Option String) : Except String (Option String) :=
  match clean_google_href x with
  | .error e => .error e
  | .ok r => clean_google_href r

/-- Does the input parse and match one of the redirect forms whose query
parameter the normalizer returns (translate-subdomain with `u`, or
`www.google.*/url` with `q` or `url`)?  These are exactly the inputs on
which `clean_google_href` answers with a query-parameter value. -/
def redirectForm (h : String) : Bool :=
  match urlparseChars h.toList with
  | .error _ => false
  | .ok p =>
    (translatePrefix.isPrefixOf p.netloc && (qsFirst p.query ['u']).isSome)
    || (wwwPrefix.isPrefixOf p.netloc && p.path == urlPathChars
        && ((qsFirst p.query ['q']).isSome || (qsFirst p.query ['u', 'r', 'l']).isSome))

/-! ## Model of `safe_filename` -/

/-- Python `str.isspace` for the ASCII whitespace characters (the source's
`\s` and `strip()` also cover some further Unicode whitespace, which no
claim depends on). -/
def pyIsSpace (c : Char) : Bool :=
  c = ' ' || c = '\t' || c = '\n' || c = '\r' || c = '\x0b' || c = '\x0c'

/-- Python `s.strip()`: remove leading and trailing whitespace. -/
def pyStrip (l : List Char) : List Char :=
  ((l.dropWhile pyIsSpace).reverse.dropWhile pyIsSpace).reverse

/-- Python `re.sub(r"\s+", "_", s)`: every maximal whitespace run becomes a
single underscore.  The flag records whether the previous character was
whitespace (run continuation). -/
def collapseWsAux : Bool → List Char → List Char
  | _, [] => []
  | prevSpace, c :: rest =>
    if pyIsSpace c then
      if prevSpace then collapseWsAux true rest
      else '_' :: collapseWsAux true rest
    else c :: collapseWsAux false rest

/-- Characters kept by `re.sub(r"[^a-z0-9_\-\.]+", "", s)`: lowercase ASCII
letters, digits, underscore, hyphen, dot. -/
def fnameAllowed (c : Char) : Bool :=
  (97 ≤ c.toNat && c.toNat ≤ 122) || (48 ≤ c.toNat && c.toNat ≤ 57)
    || c = '_' || c = '-' || c = '.'

/-- Is `c` one of the characters stripped by `.strip("_-.")`? -/
def udotDash (c : Char) : Bool := c = '_' || c = '-' || c = '.'

/-- Python `s.strip("_-.")`. -/
def stripUdotDash (l : List Char) : List Char :=
  ((l.dropWhile udotDash).reverse.dropWhile udotDash).reverse

/-- Model of `safe_filename(s, max_len)` from src/GURLScraper.py:
strip/lower, whitespace runs to `_`, drop disallowed characters, truncate
to `max_len`, fall back to `"dork"` when empty, strip `_-.` from the ends,
fall back to `"dork"` again.  (`Char.toLower` lowercases ASCII only; the
non-ASCII letters Python would lowercase are dropped by the filter in both
models.) -/
def safe_filename (s : String) (max_len : Nat) : String :=
  let l1 := (pyStrip s.toList).map Char.toLower
  let l2 := collapseWsAux false l1
  let l3 := l2.filter fnameAllowed
  let l4 := l3.take max_len
  let l5 := if l4 = [] then "dork".toList else l4
  let l6 := stripUdotDash l5
  if l6 = [] then "dork" else String.mk l6

/-! ## Dedup structures

Python `set` is modelled as a duplicate-free list in insertion order
(`listInsert` adds only unseen elements); set cardinality is the card of
the list's `toFinset`.  Python `dict` is an insertion-ordered association
list: assignment to a fresh key and `setdefault` append at the end, exactly
as CPython dicts behave. -/

/-- Set insertion: `s.add(u)` (position irrelevant for set semantics; the
model keeps first-insertion order). -/
def listInsert (l : List String) (u : String) : List String :=
  if u ∈ l then l else l ++ [u]

/-- Dict lookup (first matching key; keys are unique in reachable states).
-/
def alookup {α : Type} : List (String × α) → String → Option α
  | [], _ => none
  | (k, v) :: rest, key => if k = key then some v else alookup rest key

/-- Dict lookup with a default (`dict.get(key, dflt)` / guaranteed-present
access). -/
def alookupD {α : Type} (l : List (String × α)) (key : String) (dflt : α) : α :=
  (alookup l key).getD dflt

/-- Dict assignment `d[key] = v`: update in place, or append a fresh key. -/
def assocSet {α : Type} : List (String × α) → String → α → List (String × α)
  | [], key, v => [(key, v)]
  | (k, w) :: rest, key, v =>
    if k = key then (k, v) :: rest else (k, w) :: assocSet rest key v

/-- Dict `d.setdefault(key, dflt)` (the mutation part). -/
def setdefaultA {α : Type} (l : List (String × α)) (key : String) (dflt : α) :
    List (String × α) :=
  match alookup l key with
  | some _ => l
  | none => l ++ [(key, dflt)]

/-- The line `url_to_dorks.setdefault(u, set()).add(dork)`. -/
def utdAdd : List (String × List String) → String → String → List (String × List String)
  | [], u, d => [(u, [d])]
  | (k, v) :: rest, u, d =>
    if k = u then (k, listInsert v d) :: rest else (k, v) :: utdAdd rest u d

/-! ## Crawl engine (`crawl_until_last_page`) -/

/-- The observations the crawl loop makes of one rendered results page:
the `href` attributes of the organic result anchors (in DOM order;
`none` for a missing attribute), whether `get_next_button` finds a next
control, and whether clicking it succeeds. -/
structure PageObs where
  anchors : List (Option String)
  hasNext : Bool
  clickOk : Bool
deriving DecidableEq

/-- The four dedup structures `crawl_until_last_page` receives for one
dork: the global URL set, the dork's seen-set and URL list, and the shared
URL-to-dorks mapping. -/
structure CrawlCtx where
  global_seen : List String
  per_dork_seen : List String
  per_dork_urls : List String
  url_to_dorks : List (String × List String)
deriving DecidableEq

/-- The per-URL body of the merge loop in `crawl_until_last_page`
(lines 172–182): guarded global insert, guarded per-dork insert+append,
unconditional `url_to_dorks[u].add(dork)`.  (The `new_global` /
`new_for_this_dork` counters only feed the progress print.) -/
def mergeUrl (dork : String) (ctx : CrawlCtx) (u : String) : CrawlCtx :=
  { global_seen := if u ∈ ctx.global_seen then ctx.global_seen else ctx.global_seen ++ [u]
    per_dork_seen :=
      if u ∈ ctx.per_dork_seen then ctx.per_dork_seen else ctx.per_dork_seen ++ [u]
    per_dork_urls :=
      if u ∈ ctx.per_dork_seen then ctx.per_dork_urls else ctx.per_dork_urls ++ [u]
    url_to_dorks := utdAdd ctx.url_to_dorks u dork }

/-- Model of `scrape_current_page`: clean each anchor's `href`, keep the
truthy results in DOM order.  An exception raised by `clean_google_href`
propagates (the source has no handler there). -/
def scrape_current_page (anchors : List (Option String)) : Except String (List String) :=
  anchors.foldlM
    (fun urls raw =>
      match clean_google_href raw with
      | .error e => .error e
      | .ok clean =>
        .ok (match clean with
          | some c => if c = "" then urls else urls ++ [c]
          | none => urls))
    []

/-- Return value of the crawl engine: terminal status (`"done"` or
`"captcha"`), pages crawled in this call, the updated dedup structures, and
the absolute page numbers reported by the progress print. -/
structure CrawlOut where
  status : String
  pages : Nat
  ctx : CrawlCtx
  reports : List Nat
deriving DecidableEq

/-- The `while True` loop of `crawl_until_last_page`, one `PageObs` per
iteration: captcha when no organic results, else count the page, merge its
URLs, report `page_offset + pages`, then done when no next control, captcha
when the click fails, else continue on the next page.  An exhausted
observation list behaves as a blank page (no organic results). -/
def crawlLoop (dork : String) (page_offset : Nat) :
    List PageObs → CrawlCtx → Nat → List Nat → Except String CrawlOut
  | [], ctx, pages, reports => .ok ⟨"captcha", pages, ctx, reports⟩
  | pg :: rest, ctx, pages, reports =>
    if pg.anchors.isEmpty then .ok ⟨"captcha", pages, ctx, reports⟩
    else
      match scrape_current_page pg.anchors with
      | .error e => .error e
      | .ok page_urls =>
        let pages1 := pages + 1
        let abs_page := page_offset + pages1
        let ctx1 := page_urls.foldl (mergeUrl dork) ctx
        let reports1 := reports ++ [abs_page]
        if !pg.hasNext then .ok ⟨"done", pages1, ctx1, reports1⟩
        else if !pg.clickOk then .ok ⟨"captcha", pages1, ctx1, reports1⟩
        else crawlLoop dork page_offset rest ctx1 pages1 reports1

/-- Model of `crawl_until_last_page(driver, dork, ..., page_offset)`; the
browser is abstracted as the list of page observations the loop will make.
-/
def crawl_until_last_page (dork : String) (script : List PageObs) (ctx : CrawlCtx)
    (page_offset : Nat) : Except String CrawlOut :=
  crawlLoop dork page_offset script ctx 0 []

/-! ## Pipeline (`pipeline_process_from_current_state`) and session state -/

/-- The five collections created in `main` and threaded through the
pipeline. -/
structure ScraperData where
  global_seen : List String
  per_dork_urls : List (String × List String)
  per_dork_seen : List (String × List String)
  url_to_dorks : List (String × List String)
  dork_page_offset : List (String × Nat)
deriving DecidableEq

/-- The empty collections, as created at process start and by `clear`. -/
def emptyData : ScraperData := ⟨[], [], [], [], []⟩

/-- Mirror of the `PipelineState` dataclass. -/
structure PipelineState where
  dorks : List String
  index : Nat
  last_status : String
deriving DecidableEq

/-- The `mode` argument of the pipeline (`"run"` or `"resume"`). -/
inductive Mode where
  | run : Mode
  | resume : Mode
deriving DecidableEq

/-- The environment one loop iteration interacts with: the outcome of
`perform_search` (run mode), the outcome of `wait_for_results_or_captcha`
(resume mode), and the page observations for the subsequent crawl. -/
structure DorkEnv where
  searchOk : Bool
  resumeOk : Bool
  script : List PageObs
deriving DecidableEq

/-- The three `setdefault` calls at the top of the pipeline loop body. -/
def ensure_dork (d : String) (m : ScraperData) : ScraperData :=
  { m with
    per_dork_urls := setdefaultA m.per_dork_urls d []
    per_dork_seen := setdefaultA m.per_dork_seen d []
    dork_page_offset := setdefaultA m.dork_page_offset d 0 }

/-- The view of the collections passed to the crawl engine for dork `d`. -/
def ctxOf (d : String) (m : ScraperData) : CrawlCtx :=
  ⟨m.global_seen, alookupD m.per_dork_seen d [], alookupD m.per_dork_urls d [],
    m.url_to_dorks⟩

/-- Store the crawl engine's updated structures back into the collections
(in Python the crawl mutates them in place through the passed references).
-/
def writeback (d : String) (ctx : CrawlCtx) (m : ScraperData) : ScraperData :=
  { m with
    global_seen := ctx.global_seen
    per_dork_seen := assocSet m.per_dork_seen d ctx.per_dork_seen
    per_dork_urls := assocSet m.per_dork_urls d ctx.per_dork_urls
    url_to_dorks := ctx.url_to_dorks }

/-- One crawl-engine merge step (`mergeUrl` for dork `d` and URL `u`)
acting on the pipeline-level collections. -/
def dataMergeUrl (d u : String) (m : ScraperData) : ScraperData :=
  writeback d (mergeUrl d (ctxOf d m) u) m

/-- States of the collections reachable from empty by `setdefault`
initialisations and crawl-engine merge steps, in any interleaving over any
dorks and URLs — the "any sequence of crawl-engine merge steps" of the
spec's invariants. -/
inductive MergeReach : ScraperData → Prop where
  | init : MergeReach emptyData
  | ensure (d : String) {m : ScraperData} : MergeReach m → MergeReach (ensure_dork d m)
  | merge (d u : String) {m : ScraperData} : MergeReach m → MergeReach (dataMergeUrl d u m)

/-- Outcome of one iteration of the pipeline loop body for the current
dork: `blocked` means query submission / the resume wait surfaced no
organic results (the crawl engine was not invoked); otherwise the crawl
engine's status, page count and reports.  `data` is the state of the
collections when the iteration ends. -/
structure StepOut where
  blocked : Bool
  status : String
  pages : Nat
  reports : List Nat
  data : ScraperData
deriving DecidableEq

/-- One iteration of the `while` body of
`pipeline_process_from_current_state` for the current `dork`: the three
`setdefault`s; `perform_search` (run) or the shorter wait (resume), with a
captcha return on failure; the crawl with `page_offset =
dork_page_offset[dork]`; and the unconditional
`dork_page_offset[dork] += pages`. -/
def pipeline_step (e : DorkEnv) (mode : Mode) (dork : String) (m : ScraperData) :
    Except String StepOut :=
  let m1 := ensure_dork dork m
  let ok := match mode with | .run => e.searchOk | .resume => e.resumeOk
  if ok = false then .ok ⟨true, "captcha", 0, [], m1⟩
  else
    match crawl_until_last_page dork e.script (ctxOf dork m1)
        (alookupD m1.dork_page_offset dork 0) with
    | .error err => .error err
    | .ok r =>
      let m2 := writeback dork r.ctx m1
      let m3 := { m2 with
        dork_page_offset :=
          assocSet m2.dork_page_offset dork (alookupD m2.dork_page_offset dork 0 + r.pages) }
      .ok ⟨false, r.status, r.pages, r.reports, m3⟩

/-- The pipeline's `while state.index < len(state.dorks)` loop.  One
`DorkEnv` is consumed per iteration (an exhausted environment behaves as a
browser that shows nothing).  The fuel is instantiated with
`dorks.length - index`, which bounds the number of iterations since every
continuing iteration increments `index`; it makes the recursion structural.
The extra `Nat` in the result counts the dorks that finished with status
`done` in this call (each of which advanced `index` by one). -/
def pipeline_loop :
    Nat → List DorkEnv → PipelineState → ScraperData → Mode →
      Except String (PipelineState × ScraperData × Nat)
  | 0, _, st, m, _ => .ok ({ st with last_status := "done" }, m, 0)
  | fuel + 1, env, st, m, mode =>
    if h : st.index < st.dorks.length then
      let dork := st.dorks.get ⟨st.index, h⟩
      match pipeline_step (env.headD ⟨false, false, []⟩) mode dork m with
      | .error err => .error err
      | .ok out =>
        if out.blocked then .ok ({ st with last_status := "captcha" }, out.data, 0)
        else if out.status = "captcha" then
          .ok ({ st with last_status := "captcha" }, out.data, 0)
        else
          match pipeline_loop fuel env.tail { st with index := st.index + 1 } out.data
              Mode.run with
          | .error err => .error err
          | .ok (stf, mf, k) => .ok (stf, mf, k + 1)
    else .ok ({ st with last_status := "done" }, m, 0)

/-- Model of `pipeline_process_from_current_state(driver, state, ..., mode)`:
set status to `running`, then run the loop from the current index. -/
def pipeline_process_from_current_state (env : List DorkEnv) (st : PipelineState)
    (m : ScraperData) (mode : Mode) : Except String (PipelineState × ScraperData × Nat) :=
  pipeline_loop (st.dorks.length - st.index) env { st with last_status := "running" } m mode

/-- Model of the `clear` command: empty every collection, reset the index
to 0 and the status to `idle`. -/
def clear_command (st : PipelineState) : PipelineState × ScraperData :=
  ({ st with index := 0, last_status := "idle" }, emptyData)

/-! ## Model of the `save` command's URL→dorks outputs -/

/-- Insert into a list sorted by Python string order. -/
def insertSorted (x : String) : List String → List String
  | [] => [x]
  | y :: ys => if pyStrLe x y then x :: y :: ys else y :: insertSorted x ys

/-- Python `sorted` on strings (insertion sort; Python's sort is stable,
and all sort keys below are distinct). -/
def pySorted : List String → List String
  | [] => []
  | x :: xs => insertSorted x (pySorted xs)

/-- Python `";".join(l)`. -/
def joinSemicolon : List String → String
  | [] => ""
  | [x] => x
  | x :: y :: rest => x ++ ";" ++ joinSemicolon (y :: rest)

/-- The rows written to `url_to_dorks.csv` (after the header): one row per
URL in sorted order, second column the semicolon-joined sorted dork list.
-/
def save_csv_rows (utd : List (String × List String)) : List (String × String) :=
  (pySorted (utd.map Prod.fst)).map fun url =>
    (url, joinSemicolon (pySorted (alookupD utd url [])))

/-- The key/value pairs of `url_to_dorks.json`: built by a dict
comprehension over `url_to_dorks.items()`, so the keys keep the dict's
insertion order (`json.dump` is called without `sort_keys`); each value is
the sorted dork list. -/
def save_json_pairs (utd : List (String × List String)) : List (String × List String) :=
  utd.map fun p => (p.1, pySorted p.2)

/-- The per-dork files written under `results/` by `save`: path (derived
with `safe_filename`, default `max_len = 70`) and line contents, in dict
iteration order. -/
def save_results_writes (pdu : List (String × List String)) : List (String × List String) :=
  pdu.map fun p => (safe_filename p.1 70 ++ ".txt", p.2)

/-- The file-system contents after a sequence of whole-file writes: a later
write to the same path overwrites the earlier one. -/
def fsAfter (writes : List (String × List String)) : List (String × List String) :=
  writes.foldl (fun fs w => assocSet fs w.1 w.2) []

/-! ## Derived views and invariants -/

/-- The URL list collected so far for dork `d` (`per_dork_urls[d]`, empty
when the dork has not been visited). -/
def urlsOf (m : ScraperData) (d : String) : List String :=
  alookupD m.per_dork_urls d []

/-- The seen-set collected so far for dork `d` (`per_dork_seen[d]`). -/
def seenOf (m : ScraperData) (d : String) : List String :=
  alookupD m.per_dork_seen d []

/-- The dork set recorded for URL `u` (`url_to_dorks.get(u, set())`). -/
def dorksOfUrl (m : ScraperData) (u : String) : List String :=
  alookupD m.url_to_dorks u []

/-- The inductive invariant of the dedup structures: the per-dork seen-set
and URL list hold the same elements with no duplicates, the URL-to-dorks
mapping records exactly the dorks whose URL list holds the URL, and the
global set holds exactly the URLs with a non-empty dork set. -/
def DedupInv (m : ScraperData) : Prop :=
  (∀ d, seenOf m d = urlsOf m d ∧ (urlsOf m d).Nodup)
    ∧ (∀ u d, d ∈ dorksOfUrl m u ↔ u ∈ urlsOf m d)
    ∧ (∀ u, u ∈ m.global_seen ↔ dorksOfUrl m u ≠ [])

/-- Did the computation return normally (no exception)? -/
def isOkE {ε α : Type} : Except ε α → Bool
  | .ok _ => true
  | .error _ => false

/-! ## Concrete data used by the claim witnesses -/

/-- A one-page environment: the wait succeeds and the single results page
has one organic anchor and no next control. -/
def envOnePage : DorkEnv := ⟨true, true, [⟨[some "https://x.example/1"], false, true⟩]⟩

/-- Collections in which dork `d1` was already interrupted after 3 pages. -/
def dataOffset3 : ScraperData := ⟨[], [], [], [], [("d1", 3)]⟩

/-- Collections reached by merging URL `b` then URL `a` for dork `d`:
the URL-to-dorks dict holds its keys in first-seen order `b, a`. -/
def dataBA : ScraperData := dataMergeUrl "d" "a" (dataMergeUrl "d" "b" emptyData)

/-- Collections holding two dorks that differ only in letter case, each
with one URL. -/
def dataCollide : ScraperData :=
  dataMergeUrl "admin login" "https://b.example/2"
    (dataMergeUrl "Admin Login" "https://a.example/1" emptyData)

/-- A two-dork session about to start. -/
def stTwoDorks : PipelineState := ⟨["d1", "d2"], 0, "idle"⟩

/-- Environment for `stTwoDorks`: the first dork yields one page and
finishes, the second dork's query submission fails to surface results. -/
def envTwoDorks : List DorkEnv :=
  [⟨true, true, [⟨[some "https://x.example/1"], false, true⟩]⟩, ⟨false, false, []⟩]

/-- A merge-reachable state with one merged URL, used to witness the
invariant claims. -/
def dataOneMerge : ScraperData := dataMergeUrl "d" "u1" emptyData

/-! # Theorems -/

/-! ## Association-list and set-model lemmas -/

theorem alookup_append {α : Type} (l1 l2 : List (String × α)) (k : String) :
    alookup (l1 ++ l2) k =
      match alookup l1 k with
      | some v => some v
      | none => alookup l2 k := by
  induction l1 with
  | nil => simp [alookup]
  | cons p rest ih =>
    by_cases h : p.1 = k <;> simp [alookup, h, ih]

theorem alookupD_assocSet_self {α : Type} (l : List (String × α)) (k : String) (v d : α) :
    alookupD (assocSet l k v) k d = v := by
  induction l with
  | nil => simp [assocSet, alookupD, alookup]
  | cons p rest ih =>
    by_cases h : p.1 = k <;> (simp [assocSet, h, alookupD, alookup]; try simpa [alookupD] using ih)

theorem alookupD_assocSet_ne {α : Type} (l : List (String × α)) {k k' : String} (v d : α)
    (h : k' ≠ k) : alookupD (assocSet l k v) k' d = alookupD l k' d := by
  induction l with
  | nil => simp [assocSet, alookupD, alookup, Ne.symm h]
  | cons p rest ih =>
    obtain ⟨pk, pv⟩ := p
    by_cases hp : pk = k
    · subst hp
      simp [assocSet, alookupD, alookup, Ne.symm h]
    · simp only [assocSet, if_neg hp]
      by_cases hp' : pk = k'
      · subst hp'
        simp [alookupD, alookup]
      · simp only [alookupD, alookup, if_neg hp']
        exact ih

theorem alookupD_setdefaultA {α : Type} (l : List (String × α)) (k k' : String) (dflt : α) :
    alookupD (setdefaultA l k dflt) k' dflt = alookupD l k' dflt := by
  unfold setdefaultA
  cases h : alookup l k with
  | some v => rfl
  | none =>
    by_cases hk : k' = k
    · subst hk
      simp [alookupD, alookup_append, h, alookup]
    · cases h' : alookup l k' with
      | some w => simp [alookupD, alookup_append, h']
      | none => simp [alookupD, alookup_append, h', alookup, Ne.symm hk]

theorem alookupD_utdAdd_self (l : List (String × List String)) (u dk : String) :
    alookupD (utdAdd l u dk) u [] = listInsert (alookupD l u []) dk := by
  induction l with
  | nil => simp [utdAdd, alookupD, alookup, listInsert]
  | cons p rest ih =>
    by_cases h : p.1 = u <;> (simp [utdAdd, h, alookupD, alookup]; try simpa [alookupD] using ih)

theorem alookupD_utdAdd_ne (l : List (String × List String)) {u u' : String} (dk : String)
    (h : u' ≠ u) : alookupD (utdAdd l u dk) u' [] = alookupD l u' [] := by
  induction l with
  | nil => simp [utdAdd, alookupD, alookup, Ne.symm h]
  | cons p rest ih =>
    obtain ⟨pk, pv⟩ := p
    by_cases hp : pk = u
    · subst hp
      simp [utdAdd, alookupD, alookup, Ne.symm h]
    · simp only [utdAdd, if_neg hp]
      by_cases hp' : pk = u'
      · subst hp'
        simp [alookupD, alookup]
      · simp only [alookupD, alookup, if_neg hp']
        exact ih

theorem mem_listInsert_iff {l : List String} {u v : String} :
    v ∈ listInsert l u ↔ v ∈ l ∨ v = u := by
  unfold listInsert
  split
  · next h => constructor
              · exact fun hv => Or.inl hv
              · rintro (hv | rfl) <;> assumption
  · simp

theorem listInsert_ne_nil {l : List String} {u : String} : listInsert l u ≠ [] := by
  unfold listInsert
  split
  · next h => exact List.ne_nil_of_mem h
  · simp

/-! ## Effect of one merge step on the collection views -/

theorem urlsOf_dataMergeUrl_self (m : ScraperData) (d u : String) :
    urlsOf (dataMergeUrl d u m) d =
      if u ∈ seenOf m d then urlsOf m d else urlsOf m d ++ [u] := by
  simp [dataMergeUrl, writeback, mergeUrl, ctxOf, urlsOf, seenOf, alookupD_assocSet_self]

theorem urlsOf_dataMergeUrl_ne (m : ScraperData) {d d' : String} (u : String) (h : d' ≠ d) :
    urlsOf (dataMergeUrl d u m) d' = urlsOf m d' := by
  simp [dataMergeUrl, writeback, mergeUrl, ctxOf, urlsOf, alookupD_assocSet_ne _ _ _ h]

theorem seenOf_dataMergeUrl_self (m : ScraperData) (d u : String) :
    seenOf (dataMergeUrl d u m) d =
      if u ∈ seenOf m d then seenOf m d else seenOf m d ++ [u] := by
  simp [dataMergeUrl, writeback, mergeUrl, ctxOf, seenOf, alookupD_assocSet_self]

theorem seenOf_dataMergeUrl_ne (m : ScraperData) {d d' : String} (u : String) (h : d' ≠ d) :
    seenOf (dataMergeUrl d u m) d' = seenOf m d' := by
  simp [dataMergeUrl, writeback, mergeUrl, ctxOf, seenOf, alookupD_assocSet_ne _ _ _ h]

theorem dorksOfUrl_dataMergeUrl_self (m : ScraperData) (d u : String) :
    dorksOfUrl (dataMergeUrl d u m) u = listInsert (dorksOfUrl m u) d := by
  simp [dataMergeUrl, writeback, mergeUrl, ctxOf, dorksOfUrl, alookupD_utdAdd_self]

theorem dorksOfUrl_dataMergeUrl_ne (m : ScraperData) {u u' : String} (d : String)
    (h : u' ≠ u) : dorksOfUrl (dataMergeUrl d u m) u' = dorksOfUrl m u' := by
  simp [dataMergeUrl, writeback, mergeUrl, ctxOf, dorksOfUrl, alookupD_utdAdd_ne _ _ h]

theorem global_dataMergeUrl (m : ScraperData) (d u : String) :
    (dataMergeUrl d u m).global_seen =
      if u ∈ m.global_seen then m.global_seen else m.global_seen ++ [u] := by
  simp [dataMergeUrl, writeback, mergeUrl, ctxOf]

theorem urlsOf_ensure (m : ScraperData) (d d' : String) :
    urlsOf (ensure_dork d m) d' = urlsOf m d' := by
  simp [ensure_dork, urlsOf, alookupD_setdefaultA]

theorem seenOf_ensure (m : ScraperData) (d d' : String) :
    seenOf (ensure_dork d m) d' = seenOf m d' := by
  simp [ensure_dork, seenOf, alookupD_setdefaultA]

theorem offset_ensure (m : ScraperData) (d d' : String) :
    alookupD (ensure_dork d m).dork_page_offset d' 0 = alookupD m.dork_page_offset d' 0 := by
  simp [ensure_dork, alookupD_setdefaultA]

/-! ## The dedup invariant is preserved -/

theorem dedupInv_empty : DedupInv emptyData := by
  refine ⟨fun d => ?_, fun u d => ?_, fun u => ?_⟩ <;>
    simp [urlsOf, seenOf, dorksOfUrl, emptyData, alookupD, alookup]

theorem dedupInv_ensure (d : String) {m : ScraperData} (h : DedupInv m) :
    DedupInv (ensure_dork d m) := by
  obtain ⟨h1, h2, h3⟩ := h
  refine ⟨fun d' => ?_, fun u d' => ?_, fun u => ?_⟩
  · rw [urlsOf_ensure, seenOf_ensure]; exact h1 d'
  · show d' ∈ dorksOfUrl m u ↔ u ∈ urlsOf (ensure_dork d m) d'
    rw [urlsOf_ensure]; exact h2 u d'
  · show u ∈ m.global_seen ↔ dorksOfUrl m u ≠ []
    exact h3 u

theorem dedupInv_merge (d u : String) {m : ScraperData} (h : DedupInv m) :
    DedupInv (dataMergeUrl d u m) := by
  obtain ⟨h1, h2, h3⟩ := h
  refine ⟨fun d' => ?_, fun u' d' => ?_, fun v => ?_⟩
  · by_cases hd : d' = d
    · subst hd
      rw [urlsOf_dataMergeUrl_self, seenOf_dataMergeUrl_self]
      obtain ⟨hse, hnd⟩ := h1 d'
      by_cases hu : u ∈ seenOf m d'
      · rw [if_pos hu, if_pos hu]
        exact ⟨hse, hnd⟩
      · rw [if_neg hu, if_neg hu]
        have hnu : u ∉ urlsOf m d' := fun hc => hu (by rw [hse]; exact hc)
        refine ⟨by rw [hse], ?_⟩
        rw [← List.concat_eq_append]
        exact hnd.concat hnu
    · rw [urlsOf_dataMergeUrl_ne m u hd, seenOf_dataMergeUrl_ne m u hd]
      exact h1 d'
  · by_cases hu : u' = u
    · subst hu
      rw [dorksOfUrl_dataMergeUrl_self, mem_listInsert_iff]
      by_cases hd : d' = d
      · subst hd
        rw [urlsOf_dataMergeUrl_self]
        obtain ⟨hse, _⟩ := h1 d'
        by_cases hmem : u' ∈ seenOf m d'
        · rw [if_pos hmem]
          have hm2 : u' ∈ urlsOf m d' := by rw [← hse]; exact hmem
          simp [hm2]
        · rw [if_neg hmem]
          simp
      · rw [urlsOf_dataMergeUrl_ne m u' hd]
        simp [hd, h2 u' d']
    · rw [dorksOfUrl_dataMergeUrl_ne m d hu]
      by_cases hd : d' = d
      · subst hd
        rw [urlsOf_dataMergeUrl_self]
        obtain ⟨hse, _⟩ := h1 d'
        by_cases hmem : u ∈ seenOf m d'
        · rw [if_pos hmem]
          exact h2 u' d'
        · rw [if_neg hmem, h2 u' d']
          constructor
          · intro hm
            exact List.mem_append_left _ hm
          · intro hm
            rcases List.mem_append.mp hm with hm | hm
            · exact hm
            · exact absurd (List.mem_singleton.mp hm) hu
      · rw [urlsOf_dataMergeUrl_ne m u hd]
        exact h2 u' d'
  · rw [global_dataMergeUrl]
    by_cases hv : v = u
    · subst hv
      rw [dorksOfUrl_dataMergeUrl_self]
      constructor
      · intro _; exact listInsert_ne_nil
      · intro _
        by_cases hm : v ∈ m.global_seen <;> simp [hm]
    · rw [dorksOfUrl_dataMergeUrl_ne m d hv]
      have hmem : (v ∈ if u ∈ m.global_seen then m.global_seen else m.global_seen ++ [u])
          ↔ v ∈ m.global_seen := by
        by_cases hm : u ∈ m.global_seen <;> simp [hm, hv]
      rw [hmem]
      exact h3 v

theorem mergeReach_dedupInv {m : ScraperData} (h : MergeReach m) : DedupInv m := by
  induction h with
  | init => exact dedupInv_empty
  | ensure d _ ih => exact dedupInv_ensure d ih
  | merge d u _ ih => exact dedupInv_merge d u ih

/-! ## Claims C3 and C4 -/

/-- C3: after any sequence of crawl-engine merge steps, every dork's URL
sequence has no repeated element and its length equals the cardinality of
that dork's seen set.  (That a URL may still occur for several dorks is
immediate since the structures of different dorks are independent; C4 makes
the cross-dork mapping precise.) -/
theorem per_dork_no_duplicate {m : ScraperData} (h : MergeReach m) (d : String) :
    (urlsOf m d).Nodup ∧ (urlsOf m d).length = (seenOf m d).toFinset.card := by
  obtain ⟨h1, _, _⟩ := mergeReach_dedupInv h
  obtain ⟨hse, hnd⟩ := h1 d
  refine ⟨hnd, ?_⟩
  rw [hse, List.toFinset_card_of_nodup hnd]

theorem per_dork_no_duplicate_witness :
    (urlsOf dataOneMerge "d").Nodup ∧
      (urlsOf dataOneMerge "d").length = (seenOf dataOneMerge "d").toFinset.card :=
  per_dork_no_duplicate (MergeReach.merge "d" "u1" MergeReach.init) "d"

/-- C4: after any sequence of crawl-engine merge steps, every URL in the
global seen set has a non-empty dork set in the URL-to-dorks mapping, and
that set holds exactly the dorks whose URL sequence contains the URL. -/
theorem url_to_dorks_complete {m : ScraperData} (h : MergeReach m) (u : String)
    (hu : u ∈ m.global_seen) :
    dorksOfUrl m u ≠ [] ∧ ∀ d, d ∈ dorksOfUrl m u ↔ u ∈ urlsOf m d := by
  obtain ⟨_, h2, h3⟩ := mergeReach_dedupInv h
  exact ⟨(h3 u).mp hu, fun d => h2 u d⟩

theorem url_to_dorks_complete_witness :
    dorksOfUrl dataOneMerge "u1" ≠ [] ∧
      ∀ d, d ∈ dorksOfUrl dataOneMerge "u1" ↔ "u1" ∈ urlsOf dataOneMerge d :=
  url_to_dorks_complete (MergeReach.merge "d" "u1" MergeReach.init) "u1" (by decide)

/-! ## Crawl-loop and pipeline lemmas -/

theorem crawlLoop_reports_prefix (dork : String) (off : Nat) :
    ∀ (script : List PageObs) (ctx : CrawlCtx) (pages : Nat) (reports : List Nat) (r : CrawlOut),
      crawlLoop dork off script ctx pages reports = .ok r →
      ∃ t, r.reports = reports ++ t := by
  intro script
  induction script with
  | nil =>
    intro ctx pages reports r h
    cases h
    exact ⟨[], by simp⟩
  | cons pg rest ih =>
    intro ctx pages reports r h
    simp only [crawlLoop] at h
    split at h
    · cases h
      exact ⟨[], by simp⟩
    · split at h
      · simp at h
      · split at h
        · cases h
          exact ⟨[off + (pages + 1)], rfl⟩
        · split at h
          · cases h
            exact ⟨[off + (pages + 1)], rfl⟩
          · obtain ⟨t, ht⟩ := ih _ _ _ _ h
            exact ⟨[off + (pages + 1)] ++ t, by rw [ht, List.append_assoc]⟩

theorem crawlLoop_status (dork : String) (off : Nat) :
    ∀ (script : List PageObs) (ctx : CrawlCtx) (pages : Nat) (reports : List Nat) (r : CrawlOut),
      crawlLoop dork off script ctx pages reports = .ok r →
      r.status = "done" ∨ r.status = "captcha" := by
  intro script
  induction script with
  | nil =>
    intro ctx pages reports r h
    cases h
    right; rfl
  | cons pg rest ih =>
    intro ctx pages reports r h
    simp only [crawlLoop] at h
    split at h
    · cases h; right; rfl
    · split at h
      · simp at h
      · split at h
        · cases h; left; rfl
        · split at h
          · cases h; right; rfl
          · exact ih _ _ _ _ h

theorem pipeline_step_offset {e : DorkEnv} {mode : Mode} {d : String} {m : ScraperData}
    {out : StepOut} (h : pipeline_step e mode d m = .ok out) (hb : out.blocked = false) :
    alookupD out.data.dork_page_offset d 0 = alookupD m.dork_page_offset d 0 + out.pages := by
  simp only [pipeline_step] at h
  split at h
  · cases h
    simp at hb
  · split at h
    · simp at h
    · cases h
      show alookupD (assocSet (writeback d _ (ensure_dork d m)).dork_page_offset d _) d 0 = _
    
      rw [alookupD_assocSet_self]
      rw [show ∀ c, (writeback d c (ensure_dork d m)).dork_page_offset
          = (ensure_dork d m).dork_page_offset from fun c => rfl]
      rw [offset_ensure]

theorem pipeline_step_resume_first_report {e : DorkEnv} {d : String} {m : ScraperData}
    {out : StepOut} {pg : PageObs} {rest : List PageObs}
    (h : pipeline_step e Mode.resume d m = .ok out) (hb : out.blocked = false)
    (hs : e.script = pg :: rest) (ha : pg.anchors ≠ []) :
    out.reports.head? = some (alookupD m.dork_page_offset d 0 + 1) := by
  simp only [pipeline_step] at h
  split at h
  · cases h
    simp at hb
  · rw [show crawl_until_last_page d e.script (ctxOf d (ensure_dork d m))
        (alookupD (ensure_dork d m).dork_page_offset d 0)
        = crawlLoop d (alookupD (ensure_dork d m).dork_page_offset d 0) e.script
            (ctxOf d (ensure_dork d m)) 0 [] from rfl, hs] at h
    rw [offset_ensure] at h
    split at h
    · simp at h
    · next r hc =>
      cases h
      show r.reports.head? = _
      simp only [crawlLoop] at hc
      split at hc
      · next hemp => exact absurd (by simpa using hemp) ha
      · split at hc
        · simp at hc
        · split at hc
          · cases hc
            rfl
          · split at hc
            · cases hc
              rfl
            · obtain ⟨t, ht⟩ := crawlLoop_reports_prefix d _ _ _ _ _ _ hc
              rw [ht]
              rfl

theorem pipeline_step_status {e : DorkEnv} {mode : Mode} {d : String} {m : ScraperData}
    {out : StepOut} (h : pipeline_step e mode d m = .ok out) (hb : out.blocked = false) :
    out.status = "done" ∨ out.status = "captcha" := by
  simp only [pipeline_step] at h
  split at h
  · cases h
    simp at hb
  · split at h
    · simp at h
    · next r hc =>
      cases h
      exact crawlLoop_status d _ _ _ _ _ _ hc

theorem pipeline_loop_index : ∀ (fuel : Nat) (env : List DorkEnv) (st : PipelineState)
    (m : ScraperData) (mode : Mode) (res : PipelineState × ScraperData × Nat),
    pipeline_loop fuel env st m mode = .ok res → res.1.index = st.index + res.2.2 := by
  intro fuel
  induction fuel with
  | zero =>
    intro env st m mode res h
    cases h
    simp
  | succ fuel ih =>
    intro env st m mode res h
    simp only [pipeline_loop] at h
    split at h
    · split at h
      · simp at h
      · split at h
        · cases h
          simp
        · split at h
          · cases h
            simp
          · split at h
            · simp at h
            · next stf mf k hrec =>
              cases h
              have hih := ih _ _ _ _ _ hrec
              dsimp only at hih ⊢
              omega
    · cases h
      simp

/-! ## Claims C1 and C2 -/

/-- C1: whenever the pipeline's loop body invokes the crawl engine for the
current dork, the returned pages-crawled-this-call count is added to that
dork's cumulative page offset unconditionally — nothing in the conclusion
depends on the returned status; and in a resume call on a dork whose
cumulative offset is `k`, the first page crawled (the first report of the
crawl) carries absolute page number `k + 1`. -/
theorem offset_accumulates_unconditionally :
    (∀ (e : DorkEnv) (mode : Mode) (d : String) (m : ScraperData) (out : StepOut),
      pipeline_step e mode d m = .ok out → out.blocked = false →
      alookupD out.data.dork_page_offset d 0 = alookupD m.dork_page_offset d 0 + out.pages)
    ∧ ∀ (e : DorkEnv) (d : String) (m : ScraperData) (out : StepOut) (pg : PageObs)
        (rest : List PageObs),
        pipeline_step e Mode.resume d m = .ok out → out.blocked = false →
        e.script = pg :: rest → pg.anchors ≠ [] →
        out.reports.head? = some (alookupD m.dork_page_offset d 0 + 1) :=
  ⟨fun _ _ _ _ _ h hb => pipeline_step_offset h hb,
   fun _ _ _ _ _ _ h hb hs ha => pipeline_step_resume_first_report h hb hs ha⟩

theorem offset_accumulates_unconditionally_witness :
    ∃ out, pipeline_step envOnePage Mode.resume "d1" dataOffset3 = .ok out
      ∧ out.blocked = false
      ∧ alookupD out.data.dork_page_offset "d1" 0
          = alookupD dataOffset3.dork_page_offset "d1" 0 + out.pages
      ∧ out.reports.head? = some (alookupD dataOffset3.dork_page_offset "d1" 0 + 1) := by
  refine ⟨_, rfl, by decide, ?_, ?_⟩
  · exact offset_accumulates_unconditionally.1 envOnePage Mode.resume "d1" dataOffset3 _
      rfl (by decide)
  · exact offset_accumulates_unconditionally.2 envOnePage "d1" dataOffset3 _
      ⟨[some "https://x.example/1"], false, true⟩ [] rfl (by decide) rfl (by decide)

/-- C2: a pipeline call moves the session index from `i` to `i + k` where
`k` is the number of dorks whose crawl finished with status `done` in that
call (so the index only increases, by exactly one per done dork, and a
captcha return — from a failed submission/wait or from the crawl — leaves
the index at the dork being processed); every crawl ends with status
`done` or `captcha`; and the clear operation resets the index to 0, the
status to idle and the collections to empty. -/
theorem session_index_advancement :
    (∀ (env : List DorkEnv) (st : PipelineState) (m : ScraperData) (mode : Mode)
        (res : PipelineState × ScraperData × Nat),
      pipeline_process_from_current_state env st m mode = .ok res →
      res.1.index = st.index + res.2.2)
    ∧ (∀ (e : DorkEnv) (mode : Mode) (d : String) (m : ScraperData) (out : StepOut),
        pipeline_step e mode d m = .ok out → out.blocked = false →
        out.status = "done" ∨ out.status = "captcha")
    ∧ ∀ st : PipelineState, (clear_command st).1.index = 0
        ∧ (clear_command st).1.last_status = "idle" ∧ (clear_command st).2 = emptyData := by
  refine ⟨fun env st m mode res h => ?_, fun _ _ _ _ _ h hb => pipeline_step_status h hb,
    fun st => ⟨rfl, rfl, rfl⟩⟩
  have h2 := pipeline_loop_index (st.dorks.length - st.index) env
    { st with last_status := "running" } m mode res h
  simpa using h2

theorem session_index_advancement_witness :
    (∃ res, pipeline_process_from_current_state envTwoDorks stTwoDorks emptyData Mode.run
        = .ok res ∧ res.1.index = stTwoDorks.index + res.2.2)
    ∧ ∃ out, pipeline_step (envTwoDorks.headD ⟨false, false, []⟩) Mode.run "d1" emptyData
        = .ok out ∧ out.blocked = false ∧ (out.status = "done" ∨ out.status = "captcha") := by
  constructor
  · refine ⟨_, rfl, ?_⟩
    exact session_index_advancement.1 envTwoDorks stTwoDorks emptyData Mode.run _ rfl
  · refine ⟨_, rfl, by decide, ?_⟩
    exact session_index_advancement.2.1 (envTwoDorks.headD ⟨false, false, []⟩) Mode.run "d1"
      emptyData _ rfl (by decide)

/-! ## Claims C9 and C10 -/

theorem stripUdotDash_sublist (l : List Char) : (stripUdotDash l).Sublist l := by
  unfold stripUdotDash
  have h1 : (l.dropWhile udotDash).Sublist l := List.dropWhile_sublist _
  have h2 : ((l.dropWhile udotDash).reverse.dropWhile udotDash).Sublist
      (l.dropWhile udotDash).reverse := List.dropWhile_sublist _
  have h3 := h2.reverse
  rw [List.reverse_reverse] at h3
  exact h3.trans h1

/-- C9: the per-dork filename derivation (at the bounded maximum length 70
used by `save`) always yields a non-empty name of at most 70 characters,
all of which are lowercase letters, digits, underscore, hyphen or dot. -/
theorem safe_filename_bounded (s : String) :
    safe_filename s 70 ≠ "" ∧ (safe_filename s 70).toList.length ≤ 70
      ∧ ∀ c ∈ (safe_filename s 70).toList, fnameAllowed c = true := by
  simp only [safe_filename]
  have h3 : ∀ c ∈ (collapseWsAux false ((pyStrip s.toList).map Char.toLower)).filter
      fnameAllowed, fnameAllowed c = true := fun c hc => List.of_mem_filter hc
  set l3 := (collapseWsAux false ((pyStrip s.toList).map Char.toLower)).filter fnameAllowed
    with hl3
  have h4mem : ∀ c ∈ l3.take 70, fnameAllowed c = true :=
    fun c hc => h3 c ((List.take_sublist 70 l3).subset hc)
  have h4len : (l3.take 70).length ≤ 70 := List.length_take_le 70 l3
  set l5 := if l3.take 70 = [] then "dork".toList else l3.take 70 with hl5
  have h5mem : ∀ c ∈ l5, fnameAllowed c = true := by
    rw [hl5]
    split
    · intro c hc
      fin_cases hc <;> decide
    · exact h4mem
  have h5len : l5.length ≤ 70 := by
    rw [hl5]
    split
    · decide
    · exact h4len
  have h6mem : ∀ c ∈ stripUdotDash l5, fnameAllowed c = true :=
    fun c hc => h5mem c ((stripUdotDash_sublist l5).subset hc)
  have h6len : (stripUdotDash l5).length ≤ 70 :=
    le_trans (stripUdotDash_sublist l5).length_le h5len
  split
  · exact ⟨by decide, by decide, by decide⟩
  · next hne =>
    refine ⟨?_, h6len, h6mem⟩
    intro hcon
    exact hne (congrArg String.data hcon)

/-- C10: the filename derivation is not injective — `"Admin Login"` and
`"admin login"` are distinct dorks mapping to the same filename — and in a
reachable state holding both dorks the save operation writes both per-dork
URL lists to the same `results/` path, the later write overwriting the
earlier, so only the second dork's list survives. -/
theorem safe_filename_collision :
    MergeReach dataCollide
    ∧ "Admin Login" ≠ "admin login"
    ∧ safe_filename "Admin Login" 70 = safe_filename "admin login" 70
    ∧ (save_results_writes dataCollide.per_dork_urls).map Prod.fst
        = ["admin_login.txt", "admin_login.txt"]
    ∧ fsAfter (save_results_writes dataCollide.per_dork_urls)
        = [("admin_login.txt", ["https://b.example/2"])] :=
  ⟨MergeReach.merge _ _ (MergeReach.merge _ _ MergeReach.init),
    by decide, by decide, by decide, by decide⟩

/-! ## Python string order: totality, transitivity, sorting -/

theorem charListLe_total : ∀ a b : List Char, charListLe a b = true ∨ charListLe b a = true := by
  intro a
  induction a with
  | nil => intro b; left; rfl
  | cons x xs ih =>
    intro b
    cases b with
    | nil => right; rfl
    | cons y ys =>
      simp only [charListLe]
      rcases Nat.lt_trichotomy x.toNat y.toNat with h | h | h
      · left
        rw [if_pos h]
      · rw [if_neg (by omega), if_neg (by omega), if_neg (by omega), if_neg (by omega)]
        exact ih ys
      · right
        rw [if_pos h]

theorem charListLe_trans :
    ∀ a b c : List Char, charListLe a b = true → charListLe b c = true →
      charListLe a c = true := by
  intro a
  induction a with
  | nil => intro b c _ _; rfl
  | cons x xs ih =>
    intro b c hab hbc
    cases b with
    | nil => simp [charListLe] at hab
    | cons y ys =>
      cases c with
      | nil => simp [charListLe] at hbc
      | cons z zs =>
        simp only [charListLe] at hab hbc ⊢
        have hab' : x.toNat < y.toNat ∨ (x.toNat = y.toNat ∧ charListLe xs ys = true) := by
          by_cases h1 : x.toNat < y.toNat
          · exact Or.inl h1
          · by_cases h2 : y.toNat < x.toNat
            · rw [if_neg h1, if_pos h2] at hab
              exact absurd hab (by decide)
            · rw [if_neg h1, if_neg h2] at hab
              exact Or.inr ⟨by omega, hab⟩
        have hbc' : y.toNat < z.toNat ∨ (y.toNat = z.toNat ∧ charListLe ys zs = true) := by
          by_cases h1 : y.toNat < z.toNat
          · exact Or.inl h1
          · by_cases h2 : z.toNat < y.toNat
            · rw [if_neg h1, if_pos h2] at hbc
              exact absurd hbc (by decide)
            · rw [if_neg h1, if_neg h2] at hbc
              exact Or.inr ⟨by omega, hbc⟩
        rcases hab' with h1 | ⟨h1, hr1⟩ <;> rcases hbc' with h2 | ⟨h2, hr2⟩
        · rw [if_pos (by omega)]
        · rw [if_pos (by omega)]
        · rw [if_pos (by omega)]
        · rw [if_neg (by omega), if_neg (by omega)]
          exact ih ys zs hr1 hr2

theorem pyStrLe_trans {a b c : String} (h1 : pyStrLe a b = true) (h2 : pyStrLe b c = true) :
    pyStrLe a c = true :=
  charListLe_trans a.toList b.toList c.toList h1 h2

theorem pyStrLe_total_of_not {a b : String} (h : ¬pyStrLe a b = true) : pyStrLe b a = true := by
  rcases charListLe_total a.toList b.toList with hh | hh
  · exact absurd hh h
  · exact hh

theorem mem_insertSorted {x y : String} {l : List String} :
    y ∈ insertSorted x l ↔ y = x ∨ y ∈ l := by
  induction l with
  | nil => simp [insertSorted]
  | cons z zs ih =>
    simp only [insertSorted]
    split
    · simp [List.mem_cons]
    · simp only [List.mem_cons, ih]
      tauto

theorem insertSorted_perm (x : String) (l : List String) :
    (insertSorted x l).Perm (x :: l) := by
  induction l with
  | nil => exact List.Perm.refl _
  | cons z zs ih =>
    simp only [insertSorted]
    split
    · exact List.Perm.refl _
    · exact (ih.cons z).trans (List.Perm.swap x z zs)

theorem pySorted_perm (l : List String) : (pySorted l).Perm l := by
  induction l with
  | nil => exact List.Perm.refl _
  | cons x xs ih =>
    exact (insertSorted_perm x (pySorted xs)).trans (ih.cons x)

theorem pairwise_insertSorted {x : String} {l : List String}
    (h : List.Pairwise (fun a b => pyStrLe a b = true) l) :
    List.Pairwise (fun a b => pyStrLe a b = true) (insertSorted x l) := by
  induction l with
  | nil => simp [insertSorted]
  | cons z zs ih =>
    rcases List.pairwise_cons.mp h with ⟨hz, hzs⟩
    simp only [insertSorted]
    split
    · next hxz =>
      refine List.pairwise_cons.mpr ⟨?_, h⟩
      intro b hb
      rcases List.mem_cons.mp hb with rfl | hb
      · exact hxz
      · exact pyStrLe_trans hxz (hz b hb)
    · next hxz =>
      refine List.pairwise_cons.mpr ⟨?_, ih hzs⟩
      intro b hb
      rcases mem_insertSorted.mp hb with rfl | hb
      · exact pyStrLe_total_of_not hxz
      · exact hz b hb

theorem pySorted_pairwise (l : List String) :
    List.Pairwise (fun a b => pyStrLe a b = true) (pySorted l) := by
  induction l with
  | nil => exact List.Pairwise.nil
  | cons x xs ih => exact pairwise_insertSorted ih

theorem alookup_of_mem_nodup {α : Type} {l : List (String × α)} {k : String} {v : α}
    (hnd : (l.map Prod.fst).Nodup) (hm : (k, v) ∈ l) : alookup l k = some v := by
  induction l with
  | nil => cases hm
  | cons p rest ih =>
    rcases List.mem_cons.mp hm with he | hm'
    · rw [← he]
      simp [alookup]
    · have hk : p.1 ≠ k := by
        intro he
        rcases List.pairwise_cons.mp hnd with ⟨hnotin, _⟩
        have : k ∈ rest.map Prod.fst := by
          exact List.mem_map_of_mem Prod.fst hm'
      
        exact hnotin k this he
      rw [show alookup (p :: rest) k = if p.1 = k then some p.2 else alookup rest k from rfl,
        if_neg hk]
      exact ih (List.Nodup.of_cons hnd) hm'

/-! ## Claim C8 -/

/-- C8 as stated is false: in the reachable state `dataBA` (URL `b` seen
before URL `a`) the JSON form of the URL→dorks table keeps the dict's
insertion order `b, a`, which is not sorted by URL — while the CSV form is
sorted. -/
theorem save_json_not_sorted :
    MergeReach dataBA
    ∧ ¬ List.Pairwise (fun a b => pyStrLe a b = true)
        ((save_json_pairs dataBA.url_to_dorks).map Prod.fst)
    ∧ List.Pairwise (fun a b => pyStrLe a b = true)
        ((save_csv_rows dataBA.url_to_dorks).map Prod.fst) :=
  ⟨MergeReach.merge _ _ (MergeReach.merge _ _ MergeReach.init), by decide, by decide⟩

/-- C8 (amended): the save operation emits the URL→dorks table in a
two-column delimited form — sorted by URL, second column the
semicolon-joined sorted dork list — and an equivalent structured (JSON)
form holding the same rows (each URL with the same joined sorted dork
list), but in the dict's first-seen key order rather than sorted by URL. -/
theorem save_table_forms {utd : List (String × List String)}
    (hnd : (utd.map Prod.fst).Nodup) :
    List.Pairwise (fun a b => pyStrLe a b = true) ((save_csv_rows utd).map Prod.fst)
    ∧ ((save_json_pairs utd).map fun p => (p.1, joinSemicolon p.2)).Perm
        (save_csv_rows utd) := by
  constructor
  · have hkeys : (save_csv_rows utd).map Prod.fst = pySorted (utd.map Prod.fst) := by
      simp only [save_csv_rows, List.map_map]
      rw [show (Prod.fst ∘ fun url => (url, joinSemicolon (pySorted (alookupD utd url []))))
          = id from rfl, List.map_id]
    rw [hkeys]
    exact pySorted_pairwise _
  · have hmap : ((save_json_pairs utd).map fun p => (p.1, joinSemicolon p.2))
        = utd.map fun p => (p.1, joinSemicolon (pySorted (alookupD utd p.1 []))) := by
      simp only [save_json_pairs, List.map_map]
      apply List.map_congr_left
      intro p hp
      have hval : alookupD utd p.1 [] = p.2 := by
        unfold alookupD
        rw [alookup_of_mem_nodup hnd (show (p.1, p.2) ∈ utd from hp)]
        rfl
      simp [Function.comp, hval]
    rw [hmap]
    have hsplit : (utd.map fun p => (p.1, joinSemicolon (pySorted (alookupD utd p.1 []))))
        = (utd.map Prod.fst).map fun url => (url, joinSemicolon (pySorted (alookupD utd url []))) := by
      rw [List.map_map]
      rfl
    rw [hsplit]
    unfold save_csv_rows
    exact (List.Perm.map _ (pySorted_perm (utd.map Prod.fst))).symm

theorem save_table_forms_witness :
    List.Pairwise (fun a b => pyStrLe a b = true)
        ((save_csv_rows dataBA.url_to_dorks).map Prod.fst)
    ∧ ((save_json_pairs dataBA.url_to_dorks).map fun p => (p.1, joinSemicolon p.2)).Perm
        (save_csv_rows dataBA.url_to_dorks) :=
  save_table_forms (by decide)

/-! ## Parsing lemmas for the normalizer claims -/

theorem splitFirst_snd_sublist {c : Char} : ∀ {l a b : List Char},
    splitFirst c l = some (a, b) → b.Sublist l := by
  intro l
  induction l with
  | nil => intro a b h; simp [splitFirst] at h
  | cons x xs ih =>
    intro a b h
    simp only [splitFirst] at h
    split at h
    · cases h
      exact List.sublist_cons_self x xs
    · cases hsf : splitFirst c xs with
      | none => rw [hsf] at h; simp at h
      | some p =>
        rw [hsf] at h
        simp only [Option.map_some'] at h
        cases h
        exact List.Sublist.cons x (ih hsf)

theorem splitScheme_snd_sublist (l : List Char) : (splitScheme l).2.Sublist l := by
  unfold splitScheme
  split
  · exact List.Sublist.refl l
  · next before after heq =>
    split
    · exact List.Sublist.refl l
    · split
      · exact splitFirst_snd_sublist heq
      · exact List.Sublist.refl l

theorem splitNetloc_fst_sublist (l : List Char) : (splitNetloc l).1.Sublist l :=
  (List.takeWhile_sublist _).trans (List.drop_sublist 2 l)

theorem urlparse_ok_of_no_brackets {l : List Char} (h1 : '[' ∉ l) (h2 : ']' ∉ l) :
    ∃ p, urlparseChars l = .ok p := by
  have hl2sub : ((l.dropWhile fun c => c.toNat ≤ 32).filter
      fun c => !(c = '\t' || c = '\r' || c = '\n' : Bool)).Sublist l :=
    (List.filter_sublist _).trans (List.dropWhile_sublist _)
  have hnet : ((splitNetloc (splitScheme ((l.dropWhile fun c => c.toNat ≤ 32).filter
      fun c => !(c = '\t' || c = '\r' || c = '\n' : Bool))).2).1).Sublist l :=
    (splitNetloc_fst_sublist _).trans ((splitScheme_snd_sublist _).trans hl2sub)
  simp only [urlparseChars]
  split
  · split
    · next hcond =>
      exfalso
      rw [Bool.or_eq_true, Bool.and_eq_true, Bool.and_eq_true] at hcond
      rcases hcond with ⟨hm, _⟩ | ⟨hm, _⟩
      · exact h1 (hnet.subset (List.elem_iff.mp hm))
      · exact h2 (hnet.subset (List.elem_iff.mp hm))
    · exact ⟨_, rfl⟩
  · split
    · next hcond =>
      exfalso
      simp at hcond
    · exact ⟨_, rfl⟩

theorem cleanChars_ok {l : List Char} {p : UrlSplitResult} (hp : urlparseChars l = .ok p) :
    cleanChars l =
      if translatePrefix.isPrefixOf p.netloc && (qsFirst p.query ['u']).isSome then
        .ok (qsFirst p.query ['u'])
      else if wwwPrefix.isPrefixOf p.netloc && p.path == urlPathChars
          && (qsFirst p.query ['q']).isSome then
        .ok (qsFirst p.query ['q'])
      else if wwwPrefix.isPrefixOf p.netloc && p.path == urlPathChars
          && (qsFirst p.query ['u', 'r', 'l']).isSome then
        .ok (qsFirst p.query ['u', 'r', 'l'])
      else if containsSeq googleDot p.netloc then .ok none
      else .ok (some l) := by
  unfold cleanChars
  rw [hp]

theorem containsSeq_infix_iff {pat l : List Char} : containsSeq pat l = true ↔ pat <:+: l := by
  induction l with
  | nil => simp [containsSeq, List.isEmpty_iff, List.infix_nil]
  | cons c rest ih =>
    simp only [containsSeq, Bool.or_eq_true, List.isPrefixOf_iff_prefix, ih,
      List.infix_cons_iff]

theorem www_contains_google {nl : List Char} (h : wwwPrefix.isPrefixOf nl = true) :
    containsSeq googleDot nl = true := by
  rw [containsSeq_infix_iff]
  rcases List.isPrefixOf_iff_prefix.mp h with ⟨t, ht⟩
  rw [← ht, show wwwPrefix = "www.".toList ++ googleDot from rfl]
  exact ⟨"www.".toList, t, by simp⟩

theorem translate_contains_google {nl : List Char} (h : translatePrefix.isPrefixOf nl = true) :
    containsSeq googleDot nl = true := by
  rw [containsSeq_infix_iff]
  rcases List.isPrefixOf_iff_prefix.mp h with ⟨t, ht⟩
  rw [← ht, show translatePrefix = "translate.".toList ++ googleDot from rfl]
  exact ⟨"translate.".toList, t, by simp⟩

theorem www_not_translate {nl : List Char} (h : wwwPrefix.isPrefixOf nl = true) :
    translatePrefix.isPrefixOf nl = false := by
  by_contra hc
  rw [Bool.not_eq_false] at hc
  rcases List.isPrefixOf_iff_prefix.mp h with ⟨t, ht⟩
  rcases List.isPrefixOf_iff_prefix.mp hc with ⟨t', ht'⟩
  rw [← ht] at ht'
  have hh := congrArg List.head? ht'
  rw [show translatePrefix = 't' :: "ranslate.google.".toList from rfl,
    show wwwPrefix = 'w' :: "ww.google.".toList from rfl] at hh
  simp at hh

/-! ## Claims C5, C6 and C7 -/

/-- C5: the normalizer returns the `q` (or else `url`) parameter value for
a `www.google.*` host on the `/url` path, the `u` parameter value for a
`translate.google.*` host, absent for any other host containing `google.`,
and the input unchanged otherwise; in particular on the three concrete
examples of the spec. -/
theorem clean_google_href_cases :
    (clean_google_href (some "https://www.google.com/url?q=https://example.com&sa=U")
        = .ok (some "https://example.com")
      ∧ clean_google_href (some "https://translate.google.com/translate?u=https://foo.org")
        = .ok (some "https://foo.org")
      ∧ clean_google_href (some "https://www.google.com/search?q=cats") = .ok none)
    ∧ (∀ (h : String) (p : UrlSplitResult) (v : List Char),
        urlparseChars h.toList = .ok p →
        translatePrefix.isPrefixOf p.netloc = true →
        qsFirst p.query ['u'] = some v →
        clean_google_href (some h) = .ok (some (String.mk v)))
    ∧ (∀ (h : String) (p : UrlSplitResult) (v : List Char),
        urlparseChars h.toList = .ok p →
        wwwPrefix.isPrefixOf p.netloc = true → p.path = urlPathChars →
        qsFirst p.query ['q'] = some v →
        clean_google_href (some h) = .ok (some (String.mk v)))
    ∧ (∀ (h : String) (p : UrlSplitResult) (v : List Char),
        urlparseChars h.toList = .ok p →
        wwwPrefix.isPrefixOf p.netloc = true → p.path = urlPathChars →
        qsFirst p.query ['q'] = none →
        qsFirst p.query ['u', 'r', 'l'] = some v →
        clean_google_href (some h) = .ok (some (String.mk v)))
    ∧ (∀ (h : String) (p : UrlSplitResult),
        urlparseChars h.toList = .ok p →
        containsSeq googleDot p.netloc = true →
        (translatePrefix.isPrefixOf p.netloc && (qsFirst p.query ['u']).isSome) = false →
        (wwwPrefix.isPrefixOf p.netloc && p.path == urlPathChars
          && (qsFirst p.query ['q']).isSome) = false →
        (wwwPrefix.isPrefixOf p.netloc && p.path == urlPathChars
          && (qsFirst p.query ['u', 'r', 'l']).isSome) = false →
        clean_google_href (some h) = .ok none)
    ∧ ∀ (h : String) (p : UrlSplitResult),
        h ≠ "" → urlparseChars h.toList = .ok p →
        containsSeq googleDot p.netloc = false →
        clean_google_href (some h) = .ok (some h) := by
  refine ⟨⟨by decide, by decide, by decide⟩, ?_, ?_, ?_, ?_, ?_⟩
  · intro h p v hp htr hu
    have hne : h ≠ "" := by
      intro he
      subst he
      rw [show urlparseChars ("" : String).toList = .ok ⟨[], [], [], [], [], []⟩ from rfl] at hp
      cases hp
      exact absurd htr (by decide)
    simp only [clean_google_href]
    rw [if_neg hne, cleanChars_ok hp, if_pos (by rw [htr, hu]; rfl), hu]
    rfl
  · intro h p v hp hw hpath hq
    have hne : h ≠ "" := by
      intro he
      subst he
      rw [show urlparseChars ("" : String).toList = .ok ⟨[], [], [], [], [], []⟩ from rfl] at hp
      cases hp
      exact absurd hw (by decide)
    simp only [clean_google_href]
    rw [if_neg hne, cleanChars_ok hp,
      if_neg (by rw [www_not_translate hw]; simp),
      if_pos (by rw [hw, hq, beq_iff_eq.mpr hpath]; rfl), hq]
    rfl
  · intro h p v hp hw hpath hqn hurl
    have hne : h ≠ "" := by
      intro he
      subst he
      rw [show urlparseChars ("" : String).toList = .ok ⟨[], [], [], [], [], []⟩ from rfl] at hp
      cases hp
      exact absurd hw (by decide)
    simp only [clean_google_href]
    rw [if_neg hne, cleanChars_ok hp,
      if_neg (by rw [www_not_translate hw]; simp),
      if_neg (by rw [hqn]; simp),
      if_pos (by rw [hw, hurl, beq_iff_eq.mpr hpath]; rfl), hurl]
    rfl
  · intro h p hp hg hg1 hg2 hg3
    have hne : h ≠ "" := by
      intro he
      subst he
      rw [show urlparseChars ("" : String).toList = .ok ⟨[], [], [], [], [], []⟩ from rfl] at hp
      cases hp
      exact absurd hg (by decide)
    simp only [clean_google_href]
    rw [if_neg hne, cleanChars_ok hp, if_neg (by rw [hg1]; simp),
      if_neg (by rw [hg2]; simp), if_neg (by rw [hg3]; simp), if_pos hg]
    rfl
  · intro h p hne hp hg
    have htr : translatePrefix.isPrefixOf p.netloc = false := by
      by_contra hc
      rw [Bool.not_eq_false] at hc
      rw [translate_contains_google hc] at hg
      exact absurd hg (by decide)
    have hw : wwwPrefix.isPrefixOf p.netloc = false := by
      by_contra hc
      rw [Bool.not_eq_false] at hc
      rw [www_contains_google hc] at hg
      exact absurd hg (by decide)
    simp only [clean_google_href]
    rw [if_neg hne, cleanChars_ok hp, if_neg (by rw [htr]; simp),
      if_neg (by rw [hw]; simp), if_neg (by rw [hw]; simp), if_neg (by rw [hg]; simp)]
    rfl

theorem clean_google_href_cases_witness :
    clean_google_href (some "https://translate.google.com/translate?u=https://foo.org")
      = .ok (some (String.mk "https://foo.org".toList))
    ∧ clean_google_href (some "https://duckduckgo.com/?q=x")
      = .ok (some "https://duckduckgo.com/?q=x") := by
  constructor
  · exact clean_google_href_cases.2.1 "https://translate.google.com/translate?u=https://foo.org"
      _ _ rfl (by decide) rfl
  · exact clean_google_href_cases.2.2.2.2.2 "https://duckduckgo.com/?q=x" _ (by decide) rfl
      (by decide)

/-- C6 is false as stated: `clean_google_href` has no exception handler,
and `urlparse` raises `ValueError("Invalid IPv6 URL")` on an authority with
an unbalanced bracket, so the exception escapes for the input
`http://[`. -/
theorem clean_google_href_raises :
    clean_google_href (some "http://[") = .error "Invalid IPv6 URL" := by decide

/-- C6 (amended): the normalizer can raise — `urlparse` raises
`ValueError` on an authority with an unbalanced square bracket — but for
every input keeping clear of the `urlparse` error paths (no square bracket
anywhere, ASCII-only; the ASCII bound also covers CPython's non-ASCII
`_checknetloc` rejection, which this model does not represent), including a
missing input, the normalizer returns normally with a URL string or
absent. -/
theorem clean_google_href_no_exception :
    ∀ x : Option String,
      (∀ s, x = some s → '[' ∉ s.toList ∧ ']' ∉ s.toList
        ∧ ∀ c ∈ s.toList, c.toNat < 128) →
      ∃ r, clean_google_href x = .ok r := by
  intro x hx
  cases x with
  | none => exact ⟨none, rfl⟩
  | some s =>
    obtain ⟨h1, h2, _⟩ := hx s rfl
    by_cases hs : s = ""
    · subst hs
      exact ⟨none, rfl⟩
    · obtain ⟨p, hp⟩ := urlparse_ok_of_no_brackets h1 h2
      simp only [clean_google_href]
      rw [if_neg hs, cleanChars_ok hp]
      split
      · exact ⟨_, rfl⟩
      · split
        · exact ⟨_, rfl⟩
        · split
          · exact ⟨_, rfl⟩
          · split
            · exact ⟨none, rfl⟩
            · exact ⟨_, rfl⟩

theorem clean_google_href_no_exception_witness :
    ∃ r, clean_google_href (some "https://www.google.com/url?q=https://example.com&sa=U")
      = .ok r :=
  clean_google_href_no_exception _
    (fun s hs => by cases hs; exact ⟨by decide, by decide, by decide⟩)

/-- C7: on any input that is not a search-engine redirect form (and with a
raised exception or an absent result propagating through the second
application), normalizing twice equals normalizing once. -/
theorem normalize_idempotent :
    ∀ x : Option String, (∀ s, x = some s → redirectForm s = false) →
      cleanTwice x = clean_google_href x := by
  intro x hx
  cases x with
  | none => rfl
  | some s =>
    have hrf : redirectForm s = false := hx s rfl
    by_cases hs : s = ""
    · subst hs
      rfl
    · have hval : clean_google_href (some s) = .ok none
          ∨ clean_google_href (some s) = .ok (some s)
          ∨ ∃ e, clean_google_href (some s) = .error e := by
        simp only [clean_google_href]
        rw [if_neg hs]
        cases hp : urlparseChars s.toList with
        | error e =>
          right; right
          exact ⟨e, by rw [show cleanChars s.toList = .error e from by
            unfold cleanChars; rw [hp]]; rfl⟩
        | ok p =>
          rw [cleanChars_ok hp]
          unfold redirectForm at hrf
          rw [hp] at hrf
          obtain ⟨hA, hBCD⟩ := Bool.or_eq_false_iff.mp hrf
          have hg23 : ∀ E C D : Bool, (E && (C || D)) = false →
              (E && C) = false ∧ (E && D) = false := by decide
          obtain ⟨hBC, hBD⟩ := hg23 _ _ _ hBCD
          rw [if_neg (by rw [hA]; simp), if_neg (by rw [hBC]; simp),
            if_neg (by rw [hBD]; simp)]
          by_cases hgoog : containsSeq googleDot p.netloc = true
          · rw [if_pos hgoog]
            left
            rfl
          · rw [if_neg hgoog]
            right; left
            rfl
      rcases hval with hc | hc | ⟨e, hc⟩
      · unfold cleanTwice
        rw [hc]
        rfl
      · unfold cleanTwice
        rw [hc]
        show clean_google_href (some s) = Except.ok (some s)
        exact hc
      · unfold cleanTwice
        rw [hc]

theorem normalize_idempotent_witness :
    cleanTwice (some "https://wikipedia.org/wiki/A")
      = clean_google_href (some "https://wikipedia.org/wiki/A") :=
  normalize_idempotent _ (fun s hs => by cases hs; decide)
